import Mathlib

/-!
# Verification of the keymaster event recorder and LDAP password authenticator

Shallow embedding of the `eventrecorder` package (certificate issuance
history: per-user doubly linked chains, lifetime quantization, expiration,
snapshot cache, persistence round trip) and of the `ldap` password
authenticator, together with proofs of the specification claims.

The per-user history is a doubly linked list in the source.  We embed it
as an arena of nodes (a `List` of node values, a node referring to its
neighbours by arena index) together with the `oldest` and `newest` head
indices, so that pointer manipulation in the source corresponds to
functional update of the arena.  Unlinked (garbage) nodes simply become
unreachable from the heads, as under garbage collection.
-/

namespace Keymaster

/-- The wire/value type of one issuance record (source: `EventType` with
fields `CreateTime uint64`, `LifetimeSeconds uint32`, `Ssh bool`,
`X509 bool`).  Machine integers are modelled as `Nat`; reductions modulo
`2^32` are written explicitly where the source performs `uint32`
arithmetic. -/
structure EventType where
  createTime : Nat
  lifetimeSeconds : Nat
  ssh : Bool
  x509 : Bool
deriving DecidableEq, Repr

/-- A history node (source: `eventType`), holding the record and the two
navigation links, here arena indices instead of pointers. -/
structure eventType where
  event : EventType
  older : Option Nat
  newer : Option Nat
deriving DecidableEq, Repr

/-- A per-user history (source: `eventsListType`): the node arena plus the
`oldest` and `newest` head references. -/
structure eventsListType where
  nodes : List eventType
  oldest : Option Nat
  newest : Option Nat
deriving DecidableEq, Repr

/-- The empty history (`&eventsListType{}` in the source). -/
def emptyEventsList : eventsListType := ⟨[], none, none⟩

/-- Functional update of one node of the arena (in-place pointer write in
the source). Out-of-range indices leave the arena unchanged. -/
def modifyNode : List eventType → Nat → (eventType → eventType) → List eventType
  | [], _, _ => []
  | n :: ns, 0, f => f n :: ns
  | n :: ns, k + 1, f => n :: modifyNode ns k f

/-- Appending one record at the `newest` end of a history.  This is the
linking portion shared verbatim by `recordEvent` (lines 138-159) and the
reconstruction loop of `loadEvents` (lines 62-75): build a node whose
`older` link is the current `newest`, set the previous newest node's
`newer` link to it, move `newest`, and set `oldest` if it was nil. -/
def appendEvent (l : eventsListType) (e : EventType) : eventsListType :=
  let idx := l.nodes.length
  let node : eventType := ⟨e, l.newest, none⟩
  let nodes := l.nodes ++ [node]
  let nodes := match l.newest with
    | some j => modifyNode nodes j (fun n => { n with newer := some idx })
    | none => nodes
  { nodes := nodes
    newest := some idx
    oldest := match l.oldest with
      | none => some idx
      | some k => some k }

/-- Walking a chain from a node toward `older` (the loop of
`getEventsList`), collecting the records.  The source loop terminates by
acyclicity; here a fuel argument bounds the walk. -/
def walkOlder (nodes : List eventType) : Nat → Option Nat → List EventType
  | 0, _ => []
  | _, none => []
  | fuel + 1, some j =>
    match nodes[j]? with
    | none => []
    | some n => n.event :: walkOlder nodes fuel n.older

/-- Walking a chain from a node toward `newer` (the loop of
`expireOldEvents`), collecting the records. -/
def walkNewer (nodes : List eventType) : Nat → Option Nat → List EventType
  | 0, _ => []
  | _, none => []
  | fuel + 1, some j =>
    match nodes[j]? with
    | none => []
    | some n => n.event :: walkNewer nodes fuel n.newer

/-- The records reachable from `oldest` by `newer` links, oldest first:
the live content of a history. -/
def liveRecords (l : eventsListType) : List EventType :=
  walkNewer l.nodes l.nodes.length l.oldest

/-- The lifetime quantization block of `recordEvent` (lines 124-137),
operating on the `uint32` second count: at or above one hour, round up to
the next whole hour when a 60 second margin crosses an hour boundary; at
or above one minute, round up to the next whole minute when a 1 second
margin crosses a minute boundary; below one minute, unchanged.  The
`% 4294967296` reductions make the `uint32` additions and the
multiplication explicit. -/
def quantizeLifetime (s : Nat) : Nat :=
  if 3600 ≤ s then
    if s / 3600 < ((s + 60) % 4294967296) / 3600 then
      ((((s + 60) % 4294967296) / 3600) * 3600) % 4294967296
    else s
  else if 60 ≤ s then
    if s / 60 < ((s + 1) % 4294967296) / 60 then
      ((((s + 1) % 4294967296) / 60) * 60) % 4294967296
    else s
  else s

/-- The quantization formula exactly as the specification words it
(section 4.2): `h = s/3600`, `hPlus = (s+60)/3600`, use `hPlus*3600` when
`hPlus > h`; analogously with minutes and a 1 second margin; below 60
seconds unchanged.  Kept separate from `quantizeLifetime` so the code can
be proved to refine the specification text. -/
def quantizeLifetimeSpec (s : Nat) : Nat :=
  if 3600 ≤ s then
    if s / 3600 < (s + 60) / 3600 then ((s + 60) / 3600) * 3600 else s
  else if 60 ≤ s then
    if s / 60 < (s + 1) / 60 then ((s + 1) / 60) * 60 else s
  else s

/-! ## Canonical chain states

After building a chain of `rs.length` nodes by successive appends and then
unlinking the first `k` of them from the `oldest` end, the state is
`prunedChain rs k`: node `i` carries record `rs[i]`, its `older` link is
`i-1` except that every node up to the current head `k` has had its
`older` link cleared, its `newer` link is `i+1` except at the last node,
and the heads frame the live window `[k, rs.length)`. -/

/-- Node `i` of the canonical chain over records `rs` pruned up to `k`. -/
def chainNode (rs : List EventType) (k i : Nat) : eventType where
  event := rs.getD i ⟨0, 0, false, false⟩
  older := if i ≤ k then none else some (i - 1)
  newer := if i + 1 = rs.length then none else some (i + 1)

/-- The arena of the canonical chain over `rs` pruned up to `k`. -/
def prunedNodes (rs : List EventType) (k : Nat) : List eventType :=
  (List.range rs.length).map (chainNode rs k)

/-- The canonical history state over records `rs` pruned up to `k`. -/
def prunedChain (rs : List EventType) (k : Nat) : eventsListType where
  nodes := prunedNodes rs k
  oldest := if k < rs.length then some k else none
  newest := if k < rs.length then some (rs.length - 1) else none

/-! ## Expiration -/

/-- The inner loop of `expireOldEvents` (lines 196-208) on one user
history: walk from `oldest` by `newer` links; while the current node is
expired (`createTime < minCreateTime`), advance `oldest`, clear `newest`
when the removed node was the last one and otherwise clear the `older`
link of its successor, and record that something changed; break at the
first non-expired node.  The source loop terminates by acyclicity; the
fuel bounds the walk. -/
def expireLoop (minCreateTime : Nat) :
    Nat → eventsListType → Option Nat → Bool → eventsListType × Bool
  | 0, l, _, changed => (l, changed)
  | _ + 1, l, none, changed => (l, changed)
  | fuel + 1, l, some j, changed =>
    match l.nodes[j]? with
    | none => (l, changed)
    | some n =>
      if minCreateTime ≤ n.event.createTime then (l, changed)
      else
        expireLoop minCreateTime fuel
          (match n.newer with
            | none => ⟨l.nodes, n.newer, none⟩
            | some m =>
                ⟨modifyNode l.nodes m (fun x => { x with older := none }),
                  n.newer, l.newest⟩)
          n.newer true

/-- Expiration of one user history with a given cutoff. -/
def expireUser (l : eventsListType) (minCreateTime : Nat) :
    eventsListType × Bool :=
  expireLoop minCreateTime l.nodes.length l l.oldest false

/-- How many records of the live window `[k, …)` are expired: the length
of the maximal expired prefix. -/
def expiredCount (rs : List EventType) (k C : Nat) : Nat :=
  ((rs.drop k).takeWhile (fun e => decide (e.createTime < C))).length

/-! ## The event store map and the recorder operations

The Go `map[string]*eventsListType` is embedded as an association list
with unique keys; `map[string][]EventType` (the serialized `EventsMap`
type) likewise. -/

/-- In-memory store: username to history (`map[string]*eventsListType`). -/
abbrev EventsMapState := List (String × eventsListType)

/-- Serialized store: username to record slice (`EventsMap =
map[string][]EventType`). -/
abbrev EventsMap := List (String × List EventType)

/-- Association list lookup (Go map indexing; `none` is the nil pointer
returned for a missing key). -/
def mapLookup {α : Type} : List (String × α) → String → Option α
  | [], _ => none
  | (k, v) :: rest, u => if k = u then some v else mapLookup rest u

/-- Association list store (Go map assignment): replace the binding if
the key is present, otherwise add it. -/
def mapStore {α : Type} : List (String × α) → String → α → List (String × α)
  | [], u, v => [(u, v)]
  | (k, w) :: rest, u, v =>
    if k = u then (u, v) :: rest else (k, w) :: mapStore rest u v

/-- Retention window: `durationMonth = time.Hour * 24 * 31` in seconds. -/
def durationMonth : Nat := 3600 * 24 * 31

/-- `recordEvent` (lines 122-159): quantize the lifetime, fetch or create
the history of the user and append a record stamped with the current
time.  The conversion `uint32(lifetime.Seconds() + 0.5)` of the incoming
duration is abstracted: `lifetimeSeconds` is the already-converted whole
second count, `now` the current Unix time. -/
def recordEvent (m : EventsMapState) (now : Nat) (username : String)
    (lifetimeSeconds : Nat) (ssh x509 : Bool) : EventsMapState :=
  let eventsList := (mapLookup m username).getD emptyEventsList
  mapStore m username
    (appendEvent eventsList
      ⟨now, quantizeLifetime lifetimeSeconds, ssh, x509⟩)

/-- The rebuild step of `getEventsList` (lines 161-176): for every user,
walk the chain from `newest` toward `older`, so every slice of the
produced mapping is ordered newest first.  The measured wall-clock build
duration of the `Events` value is a diagnostic and is not modelled. -/
def buildSnapshot (m : EventsMapState) : EventsMap :=
  m.map (fun p => (p.1, walkOlder p.2.nodes p.2.nodes.length p.2.newest))

/-- The per-user reconstruction loop of `loadEvents` (lines 60-76): scan
the saved slice in order, skip records older than the retention cutoff,
and append every surviving record at the `newest` end. -/
def loadUserEvents (slice : List EventType) (minCreateTime : Nat) :
    eventsListType :=
  slice.foldl
    (fun l e => if e.createTime < minCreateTime then l else appendEvent l e)
    emptyEventsList

/-- The reconstruction part of `loadEvents` (lines 56-78) applied to a
decoded `EventsMap`. -/
def loadEventsFromMap (m : EventsMap) (minCreateTime : Nat) :
    EventsMapState :=
  m.map (fun p => (p.1, loadUserEvents p.2 minCreateTime))

/-- `expireOldEvents` (lines 193-211): run the expiration loop on every
history; `changed` is the disjunction of the per-user outcomes. -/
def expireOldEvents (m : EventsMapState) (minCreateTime : Nat) :
    EventsMapState × Bool :=
  (m.map (fun p => (p.1, (expireUser p.2 minCreateTime).1)),
    m.any (fun p => (expireUser p.2 minCreateTime).2))

/-! ## Persistence -/

/-- `syscall.S_IRUSR`: owner read permission bit. -/
def S_IRUSR : Nat := 0o400

/-- `syscall.S_IWUSR`: owner write permission bit. -/
def S_IWUSR : Nat := 0o200

/-- `syscall.S_IRGRP`: group read permission bit. -/
def S_IRGRP : Nat := 0o40

/-- `syscall.S_IROTH`: other read permission bit. -/
def S_IROTH : Nat := 0o4

/-- `filePerms = syscall.S_IRUSR | syscall.S_IWUSR | syscall.S_IRGRP |
syscall.S_IROTH` (lines 17-18). -/
def filePerms : Nat := S_IRUSR ||| S_IWUSR ||| S_IRGRP ||| S_IROTH

/-- The durable file as written by one save: the permission bits passed
to the renaming writer and the encoded mapping. -/
structure SavedFile where
  perms : Nat
  events : EventsMap
deriving DecidableEq, Repr

/-- `saveEvents` (lines 178-191): create the renaming writer with
`filePerms` and gob-encode the mapping (the I/O itself is abstracted as
producing the written file value). -/
def saveEvents (eventsMap : EventsMap) : SavedFile :=
  ⟨filePerms, eventsMap⟩

/-- What the load step of startup can find at the history file path. -/
inductive FileData where
  /-- `os.Open` fails with a not-exist condition. -/
  | absent
  /-- The file opens but `gob` decoding fails. -/
  | undecodable
  /-- The file opens and decodes to a mapping. -/
  | contents (m : EventsMap)

/-- The two failure conditions of `loadEvents`: the open error for which
`os.IsNotExist` holds, and a decode error. -/
inductive LoadErr where
  | notFound
  | decodeFailure
deriving DecidableEq, Repr

/-- `loadEvents` (lines 44-79): on open failure return a fresh empty map
together with the error; on decode failure return the error; otherwise
reconstruct the store, dropping records older than now minus the
retention window. -/
def loadEvents (f : FileData) (now : Nat) : EventsMapState × Option LoadErr :=
  match f with
  | .absent => ([], some .notFound)
  | .undecodable => ([], some .decodeFailure)
  | .contents m => (loadEventsFromMap m (now - durationMonth), none)

/-- `newEventRecorder` (lines 23-42): load the store; fail construction
only when the load error is not the not-exist condition
(`if err != nil && !os.IsNotExist(err)`). -/
def newEventRecorder (f : FileData) (now : Nat) :
    Except LoadErr EventsMapState :=
  match loadEvents f now with
  | (m, some e) => if e = .notFound then .ok m else .error e
  | (m, none) => .ok m

/-- The save-then-load round trip: what `loadEvents` reconstructs from a
file that `saveEvents` wrote from the snapshot of a store
(`saveEvents(sr.filename, lastEvents.Events)` in the save timer case of
`eventLoop`, then `loadEvents` at the next startup), with `minCreateTime`
the retention cutoff computed at load time. -/
def roundTrip (m : EventsMapState) (minCreateTime : Nat) : EventsMapState :=
  loadEventsFromMap (saveEvents (buildSnapshot m)).events minCreateTime

/-! ## The recorder actor loop

`eventLoop` (lines 81-120) multiplexes the five event sources.  Its
mutable state relevant to the store and the snapshot cache is the
`eventsMap` and the `lastEvents` cache pointer; `rebuilds` counts how
often the rebuild branch of `getEventsList` ran, to express the
at-most-one-rebuild-per-mutation property.  Timers are represented by
the messages they deliver; the non-blocking reply send and the actual
file write are abstracted (a request step yields the snapshot that the
actor would offer on the reply channel). -/
structure LoopState where
  eventsMap : EventsMapState
  lastEvents : Option EventsMap
  rebuilds : Nat
deriving DecidableEq, Repr

/-- One message from one of the five sources of the `select` loop.  The
certificate messages carry what the handler extracts from the
certificate: the SSH principal list (`cert.ValidPrincipals`) or the
X.509 common name (`cert.Subject.CommonName`), and the remaining
lifetime already converted to whole seconds. -/
inductive Msg where
  /-- An SSH certificate on `sshCertChannel`. -/
  | sshCert (principals : List String) (lifetimeSeconds : Nat)
  /-- An X.509 certificate on `x509CertChannel`. -/
  | x509Cert (commonName : String) (lifetimeSeconds : Nat)
  /-- The hourly expiration timer firing. -/
  | hourlyTick
  /-- A snapshot request on `requestEventsChannel`. -/
  | request
  /-- The persistence debounce timer firing. -/
  | saveTick

/-- `getEventsList` (lines 161-176): return the cached snapshot if the
cache pointer is set, otherwise rebuild from the store, cache the
result, and return it. -/
def getEventsList (s : LoopState) : LoopState × EventsMap :=
  match s.lastEvents with
  | some ev => (s, ev)
  | none =>
    let ev := buildSnapshot s.eventsMap
    ({ s with lastEvents := some ev, rebuilds := s.rebuilds + 1 }, ev)

/-- One iteration of the `select` loop of `eventLoop`, given the current
Unix time.  `none` models the handler crashing (the unguarded
`cert.ValidPrincipals[0]` index on an empty principal list); otherwise
the new state and, for a request, the snapshot offered on the reply
channel are returned. -/
def step (now : Nat) (s : LoopState) (msg : Msg) :
    Option (LoopState × Option EventsMap) :=
  match msg with
  | .sshCert principals lifetimeSeconds =>
    match principals with
    | [] => none
    | principal :: _ =>
      some ({ s with
        lastEvents := none
        eventsMap := recordEvent s.eventsMap now principal lifetimeSeconds
          true false }, none)
  | .x509Cert commonName lifetimeSeconds =>
    some ({ s with
      lastEvents := none
      eventsMap := recordEvent s.eventsMap now commonName lifetimeSeconds
        false true }, none)
  | .hourlyTick =>
    if (expireOldEvents s.eventsMap (now - durationMonth)).2 then
      some ({ s with
        eventsMap := (expireOldEvents s.eventsMap (now - durationMonth)).1
        lastEvents := none }, none)
    else
      some ({ s with
        eventsMap :=
          (expireOldEvents s.eventsMap (now - durationMonth)).1 }, none)
  | .request =>
    let r := getEventsList s
    some (r.1, some r.2)
  | .saveTick =>
    let r := getEventsList s
    some (r.1, none)

/-- Processing a run of consecutive snapshot requests. -/
def processRequests (now : Nat) : Nat → LoopState → LoopState
  | 0, s => s
  | n + 1, s =>
    match step now s .request with
    | some (s', _) => processRequests now n s'
    | none => s

/-! ## The LDAP password authenticator (`lib/pwauth/ldap/impl.go`)

The collaborators (`authutil.CheckLDAPUserPassword`,
`authutil.Argon2MakeNewHash`, `authutil.Argon2CompareHashAndPassword`,
`fmt.Sprintf`, the wall clock and the failure behaviour of the
`SimpleStore`) are abstracted as oracle functions; the control flow of
`passwordAuthenticate` and `updateOrDeletePasswordHash` is embedded
verbatim. -/

/-- A cached credential (source: `cacheCredentialEntry`): an Argon2 hash
and its expiration time (Unix seconds). -/
structure cacheCredentialEntry where
  Hash : Nat
  Expiration : Nat
deriving DecidableEq, Repr

/-- The authenticator state (source: `PasswordAuthenticator`); the
`SimpleStore` contents for `passwordDataType` are a username-to-hash
mapping, `none` meaning no storage was configured. -/
structure PasswordAuthenticator where
  ldapURL : List String
  bindPattern : List String
  expirationDuration : Nat
  storage : Option (List (String × Nat))
  cachedCredentials : List (String × cacheCredentialEntry)

/-- Association list delete (Go map `delete`). -/
def mapErase {α : Type} : List (String × α) → String → List (String × α)
  | [], _ => []
  | (k, v) :: rest, u => if k = u then rest else (k, v) :: mapErase rest u

/-- The external collaborators of the authenticator.  An `Except.error`
result of `checkLDAPUserPassword` is a connection or protocol failure;
`argon2CompareOk h p` is true exactly when
`Argon2CompareHashAndPassword` returns nil. -/
structure AuthEnv where
  checkLDAPUserPassword : String → String → String → Except Unit Bool
  argon2MakeNewHash : String → Except Unit Nat
  argon2CompareOk : Nat → String → Bool
  storageGetFails : String → Bool
  storageUpsertFails : String → Bool
  sprintf : String → String → String
  now : Nat

/-- `convertToBindDN`: `fmt.Sprintf(bind_pattern, username)`. -/
def convertToBindDN (env : AuthEnv) (username bind_pattern : String) : String :=
  env.sprintf bind_pattern username

/-- `updateOrDeletePasswordHash` (lines 47-91): on a valid password,
store a fresh hash in the in-memory cache or the storage (hash-creation
and upsert failures are logged and swallowed); on an invalid password,
delete a cached hash that matches the offered password.  Every path of
the source returns `nil`, here the `Option Unit` component. -/
def updateOrDeletePasswordHash (env : AuthEnv) (pa : PasswordAuthenticator)
    (valid : Bool) (username password : String) :
    PasswordAuthenticator × Option Unit :=
  if valid then
    match env.argon2MakeNewHash password with
    | .error _ => (pa, none)
    | .ok hash =>
      let expiration := env.now + pa.expirationDuration
      match pa.storage with
      | none =>
        ({ pa with cachedCredentials :=
            mapStore pa.cachedCredentials username ⟨hash, expiration⟩ }, none)
      | some st =>
        if env.storageUpsertFails username then (pa, none)
        else ({ pa with storage := some (mapStore st username hash) }, none)
  else
    match pa.storage with
    | none =>
      match mapLookup pa.cachedCredentials username with
      | some cachedCred =>
        if env.argon2CompareOk cachedCred.Hash password then
          ({ pa with cachedCredentials :=
              mapErase pa.cachedCredentials username }, none)
        else (pa, none)
      | none => (pa, none)
    | some st =>
      if env.storageGetFails username then (pa, none)
      else
        match mapLookup st username with
        | some hash =>
          if env.argon2CompareOk hash password then
            ({ pa with storage := some (mapErase st username) }, none)
          else (pa, none)
        | none => (pa, none)

/-- The inner loop of `passwordAuthenticate` over the bind patterns for
one URL: a connection failure continues with the next pattern, a
definite answer updates the local hash state and returns
`(valid, nil)`. -/
def tryBindPatterns (env : AuthEnv) (pa : PasswordAuthenticator)
    (username password url : String) :
    List String → Option ((Bool × Option Unit) × PasswordAuthenticator)
  | [] => none
  | bindPattern :: rest =>
    match env.checkLDAPUserPassword url
        (convertToBindDN env username bindPattern) password with
    | .error _ => tryBindPatterns env pa username password url rest
    | .ok valid =>
      some ((valid, none), (updateOrDeletePasswordHash env pa valid username
        password).1)

/-- The outer loop of `passwordAuthenticate` over the configured LDAP
URLs. -/
def tryLdapURLs (env : AuthEnv) (pa : PasswordAuthenticator)
    (username password : String) :
    List String → Option ((Bool × Option Unit) × PasswordAuthenticator)
  | [] => none
  | url :: rest =>
    match tryBindPatterns env pa username password url pa.bindPattern with
    | some r => some r
    | none => tryLdapURLs env pa username password rest

/-- `passwordAuthenticate` (lines 93-140): try every URL and bind
pattern; on a definite LDAP answer return it; otherwise fall back to the
in-memory cache (honouring expiration) or the storage, and return
`(false, nil)` when nothing matches.  The result is the returned pair
together with the possibly-updated authenticator state. -/
def passwordAuthenticateFallback (env : AuthEnv)
    (pa : PasswordAuthenticator) (username password : String) :
    (Bool × Option Unit) × PasswordAuthenticator :=
  match pa.storage with
  | none =>
    match mapLookup pa.cachedCredentials username with
    | some cachedCred =>
      if env.argon2CompareOk cachedCred.Hash password then
        if env.now < cachedCred.Expiration then ((true, none), pa)
        else ((false, none), pa)
      else ((false, none), pa)
    | none => ((false, none), pa)
  | some st =>
    if env.storageGetFails username then ((false, none), pa)
    else
      match mapLookup st username with
      | some hash =>
        if env.argon2CompareOk hash password then ((true, none), pa)
        else ((false, none), pa)
      | none => ((false, none), pa)

/-- `passwordAuthenticate` (lines 93-140): try every URL and bind
pattern; on a definite LDAP answer return it; otherwise fall back to the
cache or storage. -/
def passwordAuthenticate (env : AuthEnv) (pa : PasswordAuthenticator)
    (username password : String) :
    (Bool × Option Unit) × PasswordAuthenticator :=
  match tryLdapURLs env pa username password pa.ldapURL with
  | some r => r
  | none => passwordAuthenticateFallback env pa username password

/-! ## Sortedness and statement forms of the larger claims -/

/-- Records in non-decreasing `createTime` order. -/
def sortedByTime (l : List EventType) : Prop :=
  l.Pairwise (fun a b => a.createTime ≤ b.createTime)

/-- A history that is a canonical chain state whose live window is in
non-decreasing `createTime` order.  Histories built by appends of
time-ordered records and pruned by expiration have this shape. -/
def SortedChainState (l : eventsListType) : Prop :=
  ∃ rs k, k ≤ rs.length ∧ sortedByTime (rs.drop k) ∧ l = prunedChain rs k

/-- The chain invariants after appending the records `rs` in order to an
empty history: exactly `rs.length` nodes, the heads frame the chain, the
oldest node has no `older` neighbour, the newest node has no `newer`
neighbour, and walking from `newest` by `older` links with any
sufficient fuel yields the records in reverse insertion order (fuel
independence shows the walk terminates: the chain is acyclic). -/
def ChainInvariants (rs : List EventType) : Prop :=
  (List.foldl appendEvent emptyEventsList rs).nodes.length = rs.length ∧
  (List.foldl appendEvent emptyEventsList rs).oldest = some 0 ∧
  (List.foldl appendEvent emptyEventsList rs).newest
      = some (rs.length - 1) ∧
  ((List.foldl appendEvent emptyEventsList rs).nodes[0]?).map eventType.older
      = some none ∧
  ((List.foldl appendEvent emptyEventsList rs).nodes[rs.length - 1]?).map
      eventType.newer = some none ∧
  ∀ fuel, rs.length ≤ fuel →
    walkOlder (List.foldl appendEvent emptyEventsList rs).nodes fuel
        (List.foldl appendEvent emptyEventsList rs).newest = rs.reverse

/-- The statement of claim C3 for a store: expiration removes exactly
the records with `createTime < C` leaving the rest in order, every
remaining record is non-expired, a user whose records are all removed
has both heads cleared, the returned flag is true exactly when some
record was removed, and a second pass with the same cutoff removes
nothing. -/
def ExpireSpec (m : EventsMapState) (C : Nat) : Prop :=
  (∀ p ∈ m,
    liveRecords (expireUser p.2 C).1
        = (liveRecords p.2).filter (fun e => decide (C ≤ e.createTime)) ∧
      (∀ e ∈ liveRecords (expireUser p.2 C).1, C ≤ e.createTime) ∧
      (liveRecords (expireUser p.2 C).1 = [] →
        (expireUser p.2 C).1.oldest = none ∧
          (expireUser p.2 C).1.newest = none)) ∧
  ((expireOldEvents m C).2 = true ↔
    ∃ p ∈ m, ∃ e ∈ liveRecords p.2, e.createTime < C) ∧
  expireOldEvents (expireOldEvents m C).1 C = ((expireOldEvents m C).1, false)

/-! ## Lemmas and claim theorems -/

theorem prunedNodes_length (rs : List EventType) (k : Nat) :
    (prunedNodes rs k).length = rs.length := by
  simp [prunedNodes]

theorem prunedNodes_getElem? (rs : List EventType) (k i : Nat) :
    (prunedNodes rs k)[i]? =
      if i < rs.length then some (chainNode rs k i) else none := by
  unfold prunedNodes
  by_cases h : i < rs.length
  · rw [List.getElem?_map, List.getElem?_range h]
    simp [h]
  · rw [List.getElem?_map, List.getElem?_eq_none (by simpa using not_lt.mp h)]
    simp [h]

theorem modifyNode_getElem? (l : List eventType) (j : Nat)
    (f : eventType → eventType) (i : Nat) :
    (modifyNode l j f)[i]? =
      if i = j then (l[i]?).map f else l[i]? := by
  induction l generalizing i j with
  | nil => simp [modifyNode]
  | cons n ns ih =>
    cases j with
    | zero =>
      cases i with
      | zero => simp [modifyNode]
      | succ i => simp [modifyNode]
    | succ j =>
      cases i with
      | zero => simp [modifyNode]
      | succ i =>
        simp only [modifyNode, List.getElem?_cons_succ, ih j i]
        by_cases h : i = j
        · simp [h]
        · simp [h, fun hc => h (Nat.succ_injective hc)]

theorem modifyNode_length (l : List eventType) (j : Nat)
    (f : eventType → eventType) : (modifyNode l j f).length = l.length := by
  induction l generalizing j with
  | nil => simp [modifyNode]
  | cons n ns ih =>
    cases j with
    | zero => simp [modifyNode]
    | succ j => simp [modifyNode, ih]

theorem prunedChain_nodes (rs : List EventType) (k : Nat) :
    (prunedChain rs k).nodes = prunedNodes rs k := rfl

theorem prunedChain_oldest (rs : List EventType) (k : Nat) :
    (prunedChain rs k).oldest = if k < rs.length then some k else none := rfl

theorem prunedChain_newest (rs : List EventType) (k : Nat) :
    (prunedChain rs k).newest =
      if k < rs.length then some (rs.length - 1) else none := rfl

theorem chainNode_append_left (rs : List EventType) (e : EventType) (k i : Nat)
    (hi : i < rs.length) (hlast : i + 1 ≠ rs.length) :
    chainNode (rs ++ [e]) k i = chainNode rs k i := by
  unfold chainNode
  have h1 : (rs ++ [e])[i]? = rs[i]? := List.getElem?_append_left hi
  have h3 : ¬(i = rs.length) := by omega
  simp [List.getD_eq_getElem?_getD, h1, h3, hlast]

/-- One append step on a canonical unpruned chain produces the canonical
chain of the extended record list. -/
theorem appendEvent_prunedChain (rs : List EventType) (e : EventType) :
    appendEvent (prunedChain rs 0) e = prunedChain (rs ++ [e]) 0 := by
  cases hrs : rs with
  | nil => rfl
  | cons r rest =>
    have hN : 1 ≤ rs.length := by simp [hrs]
    rw [← hrs]
    clear hrs
    have hnodes : (prunedChain rs 0).nodes = prunedNodes rs 0 := rfl
    have hlen : (prunedChain rs 0).nodes.length = rs.length := by
      rw [prunedChain_nodes, prunedNodes_length]
    have hnewest : (prunedChain rs 0).newest = some (rs.length - 1) := by
      rw [prunedChain_newest, if_pos (by omega)]
    have holdest : (prunedChain rs 0).oldest = some 0 := by
      rw [prunedChain_oldest, if_pos (by omega)]
    have harena : ∀ i : Nat,
        (modifyNode (prunedNodes rs 0 ++ [(⟨e, some (rs.length - 1), none⟩ : eventType)])
          (rs.length - 1)
          (fun n => { n with newer := some rs.length }))[i]?
        = (prunedNodes (rs ++ [e]) 0)[i]? := by
      intro i
      rw [modifyNode_getElem?, prunedNodes_getElem?]
      have happ : (prunedNodes rs 0 ++ [(⟨e, some (rs.length - 1), none⟩ : eventType)])[i]?
          = if i < rs.length then some (chainNode rs 0 i)
            else if i = rs.length then some ⟨e, some (rs.length - 1), none⟩
            else none := by
        by_cases h1 : i < rs.length
        · rw [List.getElem?_append_left (by rw [prunedNodes_length]; omega)]
          rw [prunedNodes_getElem?]
          simp [h1]
        · rw [List.getElem?_append_right (by rw [prunedNodes_length]; omega)]
          rw [prunedNodes_length]
          by_cases h2 : i = rs.length
          · simp [h1, h2]
          · have hge : 1 ≤ i - rs.length := by omega
            rw [List.getElem?_eq_none (by simpa using hge)]
            simp [h1, h2]
      rw [happ]
      have hlenapp : (rs ++ [e]).length = rs.length + 1 := by simp
      by_cases hlast : i = rs.length - 1
      · subst hlast
        rw [if_pos (by omega : rs.length - 1 < rs.length),
          if_pos (by omega : rs.length - 1 < (rs ++ [e]).length),
          if_pos rfl, Option.map_some']
        have hsc : rs.length - 1 + 1 = rs.length := by omega
        congr 1
        unfold chainNode
        have h1 : (rs ++ [e])[rs.length - 1]? = rs[rs.length - 1]? :=
          List.getElem?_append_left (by omega)
        simp [List.getD_eq_getElem?_getD, h1, hsc]
      · rw [if_neg hlast]
        by_cases h1 : i < rs.length
        · rw [if_pos h1, if_pos (by omega)]
          rw [chainNode_append_left rs e 0 i h1 (by omega)]
        · by_cases h2 : i = rs.length
          · subst h2
            rw [if_neg (by omega), if_pos rfl, if_pos (by omega)]
            unfold chainNode
            have hgd : (rs ++ [e])[rs.length]? = some e :=
              List.getElem?_concat_length rs e
            have hno : ¬(rs.length ≤ 0) := by omega
            simp [List.getD_eq_getElem?_getD, hgd, hno]
          · rw [if_neg (by omega), if_neg h2, if_neg (by omega)]
    have hL : appendEvent (prunedChain rs 0) e =
        ⟨modifyNode (prunedNodes rs 0 ++ [(⟨e, some (rs.length - 1), none⟩ : eventType)])
            (rs.length - 1) (fun n => { n with newer := some rs.length }),
          some 0, some rs.length⟩ := by
      simp only [appendEvent, hnewest, holdest, hnodes, prunedNodes_length]
    have hR : prunedChain (rs ++ [e]) 0 =
        ⟨prunedNodes (rs ++ [e]) 0, some 0, some rs.length⟩ := by
      have h0 : (0 : Nat) < (rs ++ [e]).length := by simp
      have h1 : (rs ++ [e]).length - 1 = rs.length := by simp
      unfold prunedChain
      rw [if_pos h0, if_pos h0, h1]
    rw [hL, hR]
    simp only [eventsListType.mk.injEq, and_true, true_and, and_self]
    exact List.ext_getElem? harena

/-- Appending records one by one from the empty history yields exactly the
canonical unpruned chain. -/
theorem foldl_appendEvent (rs : List EventType) :
    List.foldl appendEvent emptyEventsList rs = prunedChain rs 0 := by
  induction rs using List.reverseRecOn with
  | nil => rfl
  | append_singleton l a ih =>
    rw [List.foldl_append, List.foldl_cons, List.foldl_nil, ih,
      appendEvent_prunedChain]

theorem walkOlder_fuel_none (nodes : List eventType) (fuel : Nat) :
    walkOlder nodes fuel none = [] := by
  cases fuel <;> rfl

theorem walkNewer_fuel_none (nodes : List eventType) (fuel : Nat) :
    walkNewer nodes fuel none = [] := by
  cases fuel <;> rfl

/-- Walking toward `older` from position `i` of a canonical chain yields
the records of the window `[k, i]`, newest first.  Any amount of fuel
covering the window length suffices, which also shows the walk terminates
(the chain is acyclic). -/
theorem walkOlder_prunedNodes (rs : List EventType) (k : Nat) :
    ∀ fuel i, k ≤ i → i < rs.length → i - k < fuel →
      walkOlder (prunedNodes rs k) fuel (some i)
        = ((rs.take (i + 1)).drop k).reverse := by
  intro fuel
  induction fuel with
  | zero => omega
  | succ fuel ih =>
    intro i hk hi hfuel
    have hget : (prunedNodes rs k)[i]? = some (chainNode rs k i) := by
      rw [prunedNodes_getElem?, if_pos hi]
    have hgd : rs[i]?.getD (⟨0, 0, false, false⟩ : EventType) = rs[i] := by
      rw [List.getElem?_eq_getElem hi]
      rfl
    have htake : rs.take (i + 1) = rs.take i ++ [rs[i]] := by
      rw [List.take_succ, List.getElem?_eq_getElem hi]
      rfl
    by_cases hik : i ≤ k
    · have hik' : i = k := by omega
      subst hik'
      show walkOlder _ (fuel + 1) (some i) = _
      rw [show walkOlder (prunedNodes rs i) (fuel + 1) (some i)
          = match (prunedNodes rs i)[i]? with
            | none => []
            | some n => n.event :: walkOlder (prunedNodes rs i) fuel n.older
          from rfl]
      rw [hget]
      show (chainNode rs i i).event
          :: walkOlder (prunedNodes rs i) fuel (chainNode rs i i).older = _
      have holder : (chainNode rs i i).older = none := by
        unfold chainNode
        simp
      rw [holder, walkOlder_fuel_none]
      unfold chainNode
      rw [htake, List.drop_left' (by rw [List.length_take]; omega)]
      simp [hgd]
    · have hko : k < i := by omega
      rw [show walkOlder (prunedNodes rs k) (fuel + 1) (some i)
          = match (prunedNodes rs k)[i]? with
            | none => []
            | some n => n.event :: walkOlder (prunedNodes rs k) fuel n.older
          from rfl]
      rw [hget]
      show (chainNode rs k i).event
          :: walkOlder (prunedNodes rs k) fuel (chainNode rs k i).older = _
      have holder : (chainNode rs k i).older = some (i - 1) := by
        unfold chainNode
        rw [if_neg (by omega)]
      rw [holder, ih (i - 1) (by omega) (by omega) (by omega)]
      have hsub : i - 1 + 1 = i := by omega
      rw [hsub]
      unfold chainNode
      rw [htake, List.drop_append_of_le_length (by rw [List.length_take]; omega)]
      simp [hgd]

/-- Walking toward `newer` from position `i` of a canonical chain yields
the suffix of the records from `i` on, oldest first. -/
theorem walkNewer_prunedNodes (rs : List EventType) (k : Nat) :
    ∀ fuel i, i < rs.length → rs.length - i ≤ fuel →
      walkNewer (prunedNodes rs k) fuel (some i) = rs.drop i := by
  intro fuel
  induction fuel with
  | zero => omega
  | succ fuel ih =>
    intro i hi hfuel
    have hget : (prunedNodes rs k)[i]? = some (chainNode rs k i) := by
      rw [prunedNodes_getElem?, if_pos hi]
    have hgd : rs[i]?.getD (⟨0, 0, false, false⟩ : EventType) = rs[i] := by
      rw [List.getElem?_eq_getElem hi]
      rfl
    rw [show walkNewer (prunedNodes rs k) (fuel + 1) (some i)
        = match (prunedNodes rs k)[i]? with
          | none => []
          | some n => n.event :: walkNewer (prunedNodes rs k) fuel n.newer
        from rfl]
    rw [hget]
    show (chainNode rs k i).event
        :: walkNewer (prunedNodes rs k) fuel (chainNode rs k i).newer = _
    rw [List.drop_eq_getElem_cons hi]
    by_cases hlast : i + 1 = rs.length
    · have hnewer : (chainNode rs k i).newer = none := by
        unfold chainNode
        rw [if_pos hlast]
      rw [hnewer, walkNewer_fuel_none]
      have : rs.drop (i + 1) = [] := List.drop_eq_nil_of_le (by omega)
      rw [this]
      unfold chainNode
      simp [hgd]
    · have hnewer : (chainNode rs k i).newer = some (i + 1) := by
        unfold chainNode
        rw [if_neg hlast]
      rw [hnewer, ih (i + 1) (by omega) (by omega)]
      unfold chainNode
      simp [hgd]

/-- The live records of a canonical chain are the records of the live
window, oldest first. -/
theorem liveRecords_prunedChain (rs : List EventType) (k : Nat) :
    liveRecords (prunedChain rs k) = rs.drop k := by
  unfold liveRecords
  rw [prunedChain_nodes, prunedNodes_length, prunedChain_oldest]
  by_cases h : k < rs.length
  · rw [if_pos h, walkNewer_prunedNodes rs k rs.length k h (by omega)]
  · rw [if_neg h, walkNewer_fuel_none]
    exact (List.drop_eq_nil_of_le (by omega)).symm

theorem expiredCount_of_le (rs : List EventType) (k C : Nat)
    (h : rs.length ≤ k) : expiredCount rs k C = 0 := by
  unfold expiredCount
  rw [List.drop_eq_nil_of_le h]
  rfl

theorem chainNode_congr (rs : List EventType) (k k' i : Nat)
    (h : (i ≤ k) ↔ (i ≤ k')) : chainNode rs k i = chainNode rs k' i := by
  unfold chainNode
  by_cases hk : i ≤ k
  · rw [if_pos hk, if_pos (h.mp hk)]
  · rw [if_neg hk, if_neg (fun hc => hk (h.mpr hc))]

theorem prunedNodes_congr (rs : List EventType) (k k' : Nat)
    (h : ∀ i, i < rs.length → ((i ≤ k) ↔ (i ≤ k'))) :
    prunedNodes rs k = prunedNodes rs k' := by
  apply List.ext_getElem?
  intro i
  rw [prunedNodes_getElem?, prunedNodes_getElem?]
  by_cases hi : i < rs.length
  · rw [if_pos hi, if_pos hi, chainNode_congr rs k k' i (h i hi)]
  · rw [if_neg hi, if_neg hi]

theorem expireLoop_step (C fuel : Nat) (l : eventsListType) (j : Nat)
    (changed : Bool) (n : eventType) (h : l.nodes[j]? = some n) :
    expireLoop C (fuel + 1) l (some j) changed
      = if C ≤ n.event.createTime then (l, changed)
        else
          expireLoop C fuel
            (match n.newer with
              | none => ⟨l.nodes, n.newer, none⟩
              | some m =>
                  ⟨modifyNode l.nodes m (fun x => { x with older := none }),
                    n.newer, l.newest⟩)
            n.newer true := by
  rw [show expireLoop C (fuel + 1) l (some j) changed
      = match l.nodes[j]? with
        | none => (l, changed)
        | some n =>
          if C ≤ n.event.createTime then (l, changed)
          else
            expireLoop C fuel
              (match n.newer with
                | none => ⟨l.nodes, n.newer, none⟩
                | some m =>
                    ⟨modifyNode l.nodes m (fun x => { x with older := none }),
                      n.newer, l.newest⟩)
              n.newer true
      from rfl]
  rw [h]

/-- The expiration loop on a canonical chain advances the live window
past exactly the maximal expired prefix, and reports whether it removed
anything. -/
theorem expireLoop_prunedChain (C : Nat) (rs : List EventType) :
    ∀ fuel k changed, rs.length - k ≤ fuel →
      expireLoop C fuel (prunedChain rs k) (prunedChain rs k).oldest changed
        = (prunedChain rs (k + expiredCount rs k C),
            changed || decide (0 < expiredCount rs k C)) := by
  intro fuel
  induction fuel with
  | zero =>
    intro k changed hfuel
    have hk : rs.length ≤ k := by omega
    rw [expiredCount_of_le rs k C hk]
    show (prunedChain rs k, changed) = _
    rw [Nat.add_zero]
    simp
  | succ fuel ih =>
    intro k changed hfuel
    by_cases hk : k < rs.length
    · rw [show (prunedChain rs k).oldest = some k from by
        rw [prunedChain_oldest, if_pos hk]]
      have hget : (prunedChain rs k).nodes[k]? = some (chainNode rs k k) := by
        rw [prunedChain_nodes, prunedNodes_getElem?, if_pos hk]
      rw [expireLoop_step C fuel (prunedChain rs k) k changed
        (chainNode rs k k) hget]
      have hgd : (chainNode rs k k).event = rs[k] := by
        unfold chainNode
        rw [List.getD_eq_getElem?_getD, List.getElem?_eq_getElem hk]
        rfl
      have hdrop : rs.drop k = rs[k] :: rs.drop (k + 1) :=
        List.drop_eq_getElem_cons hk
      by_cases hexp : C ≤ rs[k].createTime
      · rw [if_pos (by rw [hgd]; exact hexp)]
        have hcnt : expiredCount rs k C = 0 := by
          unfold expiredCount
          rw [hdrop, List.takeWhile_cons_of_neg (by simpa using not_lt.mpr hexp)]
          rfl
        rw [hcnt, Nat.add_zero]
        simp
      · rw [if_neg (by rw [hgd]; exact hexp)]
        have hcnt : expiredCount rs k C = 1 + expiredCount rs (k + 1) C := by
          unfold expiredCount
          rw [hdrop, List.takeWhile_cons_of_pos (by simpa using not_le.mp hexp),
            List.length_cons]
          omega
        by_cases hlast : k + 1 = rs.length
        · have hnewer : (chainNode rs k k).newer = none := by
            unfold chainNode
            rw [if_pos hlast]
          rw [hnewer]
          show expireLoop C fuel
              ⟨(prunedChain rs k).nodes, none, none⟩ none true = _
          have hstate : (⟨(prunedChain rs k).nodes, (none : Option Nat), none⟩
              : eventsListType) = prunedChain rs (k + 1) := by
            have hn : prunedNodes rs k = prunedNodes rs (k + 1) :=
              prunedNodes_congr rs k (k + 1) (fun i hi => by omega)
            rw [prunedChain_nodes, hn]
            unfold prunedChain
            rw [if_neg (show ¬(k + 1 < rs.length) by omega),
              if_neg (show ¬(k + 1 < rs.length) by omega)]
          rw [hstate]
          have hloop : ∀ f l c, expireLoop C f l none c = (l, c) := by
            intro f l c
            cases f <;> rfl
          rw [hloop]
          have hcnt1 : expiredCount rs (k + 1) C = 0 :=
            expiredCount_of_le rs (k + 1) C (by omega)
          rw [hcnt, hcnt1]
          simp
        · have hnewer : (chainNode rs k k).newer = some (k + 1) := by
            unfold chainNode
            rw [if_neg hlast]
          rw [hnewer]
          show expireLoop C fuel
              ⟨modifyNode (prunedChain rs k).nodes (k + 1)
                  (fun x => { x with older := none }),
                some (k + 1), (prunedChain rs k).newest⟩
              (some (k + 1)) true = _
          have hnodes : modifyNode (prunedNodes rs k) (k + 1)
              (fun x => { x with older := none }) = prunedNodes rs (k + 1) := by
            apply List.ext_getElem?
            intro i
            rw [modifyNode_getElem?, prunedNodes_getElem?, prunedNodes_getElem?]
            by_cases hik : i = k + 1
            · subst hik
              rw [if_pos rfl, if_pos (by omega), if_pos (by omega),
                Option.map_some']
              simp [chainNode]
            · rw [if_neg hik]
              by_cases hi : i < rs.length
              · rw [if_pos hi, if_pos hi,
                  chainNode_congr rs k (k + 1) i (by omega)]
              · rw [if_neg hi, if_neg hi]
          have hstate : (⟨modifyNode (prunedChain rs k).nodes (k + 1)
                (fun x => { x with older := none }),
                some (k + 1), (prunedChain rs k).newest⟩ : eventsListType)
              = prunedChain rs (k + 1) := by
            rw [prunedChain_nodes, hnodes,
              show (prunedChain rs k).newest = some (rs.length - 1) from by
                rw [prunedChain_newest, if_pos hk]]
            unfold prunedChain
            rw [if_pos (show k + 1 < rs.length by omega),
              if_pos (show k + 1 < rs.length by omega)]
          rw [hstate]
          rw [show (some (k + 1) : Option Nat) = (prunedChain rs (k + 1)).oldest
            from by rw [prunedChain_oldest, if_pos (by omega)]]
          rw [ih (k + 1) true (by omega)]
          rw [hcnt]
          have harith : k + (1 + expiredCount rs (k + 1) C)
              = k + 1 + expiredCount rs (k + 1) C := by omega
          rw [harith]
          simp
    · have hold : (prunedChain rs k).oldest = none := by
        rw [prunedChain_oldest, if_neg hk]
      rw [hold]
      have hcnt : expiredCount rs k C = 0 :=
        expiredCount_of_le rs k C (by omega)
      rw [hcnt, Nat.add_zero]
      show (prunedChain rs k, changed) = _
      simp

/-- Expiration of a canonical chain advances the live window past exactly
the maximal expired prefix. -/
theorem expireUser_prunedChain (rs : List EventType) (k C : Nat) :
    expireUser (prunedChain rs k) C
      = (prunedChain rs (k + expiredCount rs k C),
          decide (0 < expiredCount rs k C)) := by
  unfold expireUser
  rw [prunedChain_nodes, prunedNodes_length]
  rw [expireLoop_prunedChain C rs rs.length k false (by omega)]
  rw [Bool.false_or]

theorem takeWhile_dropWhile_nil {α : Type} (p : α → Bool) :
    ∀ l : List α, (l.dropWhile p).takeWhile p = [] := by
  intro l
  induction l with
  | nil => rfl
  | cons a t ih =>
    by_cases h : p a
    · rw [List.dropWhile_cons_of_pos h]
      exact ih
    · rw [List.dropWhile_cons_of_neg h, List.takeWhile_cons_of_neg h]

theorem drop_takeWhile_length {α : Type} (p : α → Bool) (l : List α) :
    l.drop (l.takeWhile p).length = l.dropWhile p := by
  have h := List.drop_left (l.takeWhile p) (l.dropWhile p)
  rwa [List.takeWhile_append_dropWhile] at h

theorem drop_add_expiredCount (rs : List EventType) (k C : Nat) :
    rs.drop (k + expiredCount rs k C)
      = (rs.drop k).dropWhile (fun e => decide (e.createTime < C)) := by
  rw [← List.drop_drop]
  unfold expiredCount
  exact drop_takeWhile_length _ _

theorem dropWhile_sorted_filter (C : Nat) :
    ∀ l : List EventType, sortedByTime l →
      l.dropWhile (fun e => decide (e.createTime < C))
        = l.filter (fun e => decide (C ≤ e.createTime)) := by
  intro l
  induction l with
  | nil => intro _; rfl
  | cons a t ih =>
    intro hs
    rw [sortedByTime, List.pairwise_cons] at hs
    by_cases h : a.createTime < C
    · rw [List.dropWhile_cons_of_pos (by simpa using h),
        List.filter_cons_of_neg (by simpa using not_le.mpr h)]
      exact ih hs.2
    · rw [List.dropWhile_cons_of_neg (by simpa using h),
        List.filter_cons_of_pos (by simpa using not_lt.mp h)]
      rw [List.filter_eq_self.mpr]
      intro b hb
      have : a.createTime ≤ b.createTime := hs.1 b hb
      simp only [decide_eq_true_eq]
      omega

theorem expiredCount_pos_iff (rs : List EventType) (k C : Nat)
    (hs : sortedByTime (rs.drop k)) :
    0 < expiredCount rs k C ↔ ∃ e ∈ rs.drop k, e.createTime < C := by
  unfold expiredCount
  cases hd : rs.drop k with
  | nil => simp
  | cons a t =>
    rw [hd] at hs
    rw [sortedByTime, List.pairwise_cons] at hs
    by_cases h : a.createTime < C
    · rw [List.takeWhile_cons_of_pos (by simpa using h)]
      simp only [List.length_cons]
      constructor
      · intro _
        exact ⟨a, List.mem_cons_self a t, h⟩
      · intro _
        omega
    · rw [List.takeWhile_cons_of_neg (by simpa using h)]
      simp only [List.length_nil]
      constructor
      · omega
      · rintro ⟨e, he, hlt⟩
        rcases List.mem_cons.mp he with rfl | het
        · omega
        · have := hs.1 e het
          omega

/-- A second expiration pass over an already-expired canonical chain
removes nothing and leaves the state untouched. -/
theorem expireUser_idem (rs : List EventType) (k C : Nat) :
    expireUser (expireUser (prunedChain rs k) C).1 C
      = ((expireUser (prunedChain rs k) C).1, false) := by
  rw [expireUser_prunedChain]
  show expireUser (prunedChain rs (k + expiredCount rs k C)) C = _
  rw [expireUser_prunedChain]
  have hc0 : expiredCount rs (k + expiredCount rs k C) C = 0 := by
    have h1 := drop_add_expiredCount rs k C
    unfold expiredCount
    unfold expiredCount at h1
    rw [h1, takeWhile_dropWhile_nil]
    rfl
  rw [hc0, Nat.add_zero]
  simp

/-- The code quantization agrees with the formula of specification
section 4.2 on every representable `uint32` second count (the `uint32`
wrap of the margin additions never changes the outcome below `2^32`). -/
theorem quantizeLifetime_eq_spec (s : Nat) (h : s < 4294967296) :
    quantizeLifetime s = quantizeLifetimeSpec s := by
  by_cases hov : s + 60 < 4294967296
  · have h1 : (s + 60) % 4294967296 = s + 60 := Nat.mod_eq_of_lt hov
    have h2 : (s + 1) % 4294967296 = s + 1 := Nat.mod_eq_of_lt (by omega)
    have h3 : (s + 60) / 3600 * 3600 < 4294967296 := by omega
    have h4 : (s + 1) / 60 * 60 < 4294967296 := by omega
    unfold quantizeLifetime quantizeLifetimeSpec
    rw [h1, h2, Nat.mod_eq_of_lt h3, Nat.mod_eq_of_lt h4]
  · have hs : 3600 ≤ s := by omega
    unfold quantizeLifetime quantizeLifetimeSpec
    rw [if_pos hs, if_pos hs]
    have hm : (s + 60) % 4294967296 = s + 60 - 4294967296 := by omega
    have hcodeF : ¬(s / 3600 < ((s + 60) % 4294967296) / 3600) := by
      rw [hm]
      omega
    have hspecF : ¬(s / 3600 < (s + 60) / 3600) := by omega
    rw [if_neg hcodeF, if_neg hspecF]

/-- C1: lifetime quantization follows the exact formula of specification
section 4.2: for a second count `s` (the `uint32` value recorded by
`recordEvent`), at or above 3600 the hour rule with the 60 second margin
applies, else at or above 60 the minute rule with the 1 second margin,
else `s` is recorded unchanged — `recordEvent` stores exactly the value
computed by the specification formula. -/
theorem recordEvent_follows_quantization_spec (m : EventsMapState)
    (now : Nat) (username : String) (s : Nat) (ssh x509 : Bool)
    (h : s < 4294967296) :
    recordEvent m now username s ssh x509
      = mapStore m username
          (appendEvent ((mapLookup m username).getD emptyEventsList)
            ⟨now, quantizeLifetimeSpec s, ssh, x509⟩) := by
  unfold recordEvent
  rw [quantizeLifetime_eq_spec s h]

/-- Witness for C1 at the concrete input 119 (which the minute rule
rounds up to 120). -/
theorem recordEvent_follows_quantization_spec_witness :
    119 < 4294967296 ∧
    recordEvent [] 0 "u" 119 true false
      = mapStore [] "u"
          (appendEvent ((mapLookup [] "u").getD emptyEventsList)
            ⟨0, quantizeLifetimeSpec 119, true, false⟩) :=
  ⟨by norm_num,
    recordEvent_follows_quantization_spec [] 0 "u" 119 true false
      (by norm_num)⟩

/-- C4 counterexample: the claimed examples `61 ↦ 120` and `3550 ↦ 3600`
are false on the code: 61 is one second above a minute boundary, so the
1 second margin does not reach the next minute, and 3550 is below 3600,
so the minute rule (not the hour rule) applies and does not trigger. -/
theorem quantize_examples_counterexample :
    quantizeLifetime 61 ≠ 120 ∧ quantizeLifetime 3550 ≠ 3600 := by
  decide

/-- C4 (amended): the section 8 quantization examples as the code
computes them: 59 ↦ 59, 60 ↦ 60, 61 ↦ 61 (unchanged: the 1 second margin
only rounds up values exactly one second below the next minute),
3600 ↦ 3600, 3601 ↦ 3601, and 3550 ↦ 3550 (unchanged: 3550 is below one
hour, so the minute rule applies and its margin does not trigger). -/
theorem quantize_examples :
    quantizeLifetime 59 = 59 ∧ quantizeLifetime 60 = 60 ∧
    quantizeLifetime 61 = 61 ∧ quantizeLifetime 3600 = 3600 ∧
    quantizeLifetime 3601 = 3601 ∧ quantizeLifetime 3550 = 3550 := by
  decide

/-- C5: construction distinguishes the two load failures: an absent
history file yields an empty store plus a not-found condition that is
distinguishable from the decode failure, and construction succeeds with
the empty store; an existing but undecodable file makes construction
fail, returning the error rather than silently starting empty. -/
theorem newEventRecorder_load_failures (now : Nat) :
    loadEvents .absent now = ([], some .notFound) ∧
    LoadErr.notFound ≠ LoadErr.decodeFailure ∧
    newEventRecorder .absent now = .ok [] ∧
    newEventRecorder .undecodable now = .error .decodeFailure :=
  ⟨rfl, by decide, rfl, rfl⟩

/-- C8 counterexample: the permission bits passed by `saveEvents` are not
owner read/write plus group read only — the other-read bit
(`S_IROTH`) is set as well, so the world can read the history file. -/
theorem saveEvents_perms_counterexample :
    (saveEvents []).perms ≠ (S_IRUSR ||| S_IWUSR ||| S_IRGRP) ∧
    (saveEvents []).perms % 8 = 4 := by
  decide

/-- C8 (amended): the history file is always written with mode 0644:
owner read/write, group read-only, and others read-only (not: no access
for others).  Stated bitwise: bits 8 and 7 (owner read, write) set, bit
6 (owner execute) clear, bit 5 (group read) set, bits 4 and 3 (group
write, execute) clear, bit 2 (other read) set, bits 1 and 0 (other
write, execute) clear. -/
theorem saveEvents_perms (m : EventsMap) :
    (saveEvents m).perms = 420 ∧
    ((saveEvents m).perms.testBit 8 ∧ (saveEvents m).perms.testBit 7 ∧
      ¬(saveEvents m).perms.testBit 6) ∧
    ((saveEvents m).perms.testBit 5 ∧ ¬(saveEvents m).perms.testBit 4 ∧
      ¬(saveEvents m).perms.testBit 3) ∧
    ((saveEvents m).perms.testBit 2 ∧ ¬(saveEvents m).perms.testBit 1 ∧
      ¬(saveEvents m).perms.testBit 0) := by
  have h : (saveEvents m).perms = 420 := rfl
  rw [h]
  decide

/-- C9: an SSH issuance notification with an empty principal list makes
the handler index `cert.ValidPrincipals[0]` out of bounds with no
defensive guard: the step fails hard (modelled as `none`) for every
state, time and lifetime. -/
theorem sshCert_empty_principals_fails (now : Nat) (s : LoopState)
    (lifetimeSeconds : Nat) :
    step now s (.sshCert [] lifetimeSeconds) = none := rfl

/-- C7: every sequence of appends on one user starting from an empty
history yields a well-formed acyclic chain with exactly one node per
append, bounded by `oldest` and `newest`, whose newest-to-oldest walk
lists the records in reverse insertion order. -/
theorem appendEvent_chain_invariants (rs : List EventType) (h : rs ≠ []) :
    ChainInvariants rs := by
  have hlen : 0 < rs.length := List.length_pos.mpr h
  unfold ChainInvariants
  rw [foldl_appendEvent]
  refine ⟨?_, ?_, ?_, ?_, ?_, ?_⟩
  · rw [prunedChain_nodes, prunedNodes_length]
  · rw [prunedChain_oldest, if_pos hlen]
  · rw [prunedChain_newest, if_pos hlen]
  · rw [prunedChain_nodes, prunedNodes_getElem?, if_pos hlen, Option.map_some']
    show some (chainNode rs 0 0).older = some none
    unfold chainNode
    simp
  · rw [prunedChain_nodes, prunedNodes_getElem?, if_pos (by omega),
      Option.map_some']
    show some (chainNode rs 0 (rs.length - 1)).newer = some none
    unfold chainNode
    show some (if rs.length - 1 + 1 = rs.length then none
        else some (rs.length - 1 + 1)) = some none
    rw [if_pos (by omega)]
  · intro fuel hfuel
    rw [prunedChain_newest, if_pos hlen, prunedChain_nodes,
      walkOlder_prunedNodes rs 0 fuel (rs.length - 1) (by omega) (by omega)
        (by omega)]
    rw [show rs.length - 1 + 1 = rs.length from by omega, List.take_length,
      List.drop_zero]

/-- Witness for C7 on a two-record history. -/
theorem appendEvent_chain_invariants_witness :
    (([⟨1, 2, true, false⟩, ⟨3, 4, false, true⟩] : List EventType) ≠ []) ∧
    ChainInvariants [⟨1, 2, true, false⟩, ⟨3, 4, false, true⟩] :=
  ⟨by decide,
    appendEvent_chain_invariants [⟨1, 2, true, false⟩, ⟨3, 4, false, true⟩]
      (by decide)⟩

/-- C2 (evaluating the code at the failing input): a store holding for
user alice the records with `createTime` 10 then 20, saved and loaded
back with a retention cutoff of 0 (older than all records, nothing
filtered), comes back with the per-user sequence reversed: the snapshot
that `saveEvents` persists is ordered newest first, while `loadEvents`
appends the slice elements in order at the `newest` end. -/
theorem roundTrip_reverses_order :
    liveRecords ((mapLookup
        (recordEvent (recordEvent [] 10 "alice" 30 true false)
          20 "alice" 30 true false) "alice").getD emptyEventsList)
      = [⟨10, 30, true, false⟩, ⟨20, 30, true, false⟩] ∧
    liveRecords ((mapLookup
        (roundTrip (recordEvent (recordEvent [] 10 "alice" 30 true false)
          20 "alice" 30 true false) 0) "alice").getD emptyEventsList)
      = [⟨20, 30, true, false⟩, ⟨10, 30, true, false⟩] ∧
    ([(⟨20, 30, true, false⟩ : EventType), ⟨10, 30, true, false⟩]
      ≠ [⟨10, 30, true, false⟩, ⟨20, 30, true, false⟩]) := by
  decide

/-- The per-user content of claim C3, plus idempotence, over one sorted
chain state. -/
theorem expireUser_sorted_spec (l : eventsListType) (C : Nat)
    (hl : SortedChainState l) :
    liveRecords (expireUser l C).1
        = (liveRecords l).filter (fun e => decide (C ≤ e.createTime)) ∧
    (∀ e ∈ liveRecords (expireUser l C).1, C ≤ e.createTime) ∧
    (liveRecords (expireUser l C).1 = [] →
      (expireUser l C).1.oldest = none ∧ (expireUser l C).1.newest = none) ∧
    ((expireUser l C).2 = true ↔ ∃ e ∈ liveRecords l, e.createTime < C) ∧
    expireUser (expireUser l C).1 C = ((expireUser l C).1, false) := by
  obtain ⟨rs, k, hk, hs, rfl⟩ := hl
  have hE := expireUser_prunedChain rs k C
  have h1 : (expireUser (prunedChain rs k) C).1
      = prunedChain rs (k + expiredCount rs k C) := by rw [hE]
  have h2 : (expireUser (prunedChain rs k) C).2
      = decide (0 < expiredCount rs k C) := by rw [hE]
  refine ⟨?_, ?_, ?_, ?_, expireUser_idem rs k C⟩
  · rw [h1, liveRecords_prunedChain, liveRecords_prunedChain,
      drop_add_expiredCount, dropWhile_sorted_filter C _ hs]
  · rw [h1, liveRecords_prunedChain, drop_add_expiredCount,
      dropWhile_sorted_filter C _ hs]
    intro e he
    simpa using List.of_mem_filter he
  · rw [h1, liveRecords_prunedChain]
    intro hnil
    have hlen : rs.length ≤ k + expiredCount rs k C :=
      List.drop_eq_nil_iff.mp hnil
    constructor
    · rw [prunedChain_oldest, if_neg (by omega)]
    · rw [prunedChain_newest, if_neg (by omega)]
  · rw [h2, liveRecords_prunedChain]
    constructor
    · intro hb
      exact (expiredCount_pos_iff rs k C hs).mp (of_decide_eq_true hb)
    · intro hex
      exact decide_eq_true ((expiredCount_pos_iff rs k C hs).mpr hex)

/-- C3: on a store whose per-user histories are chains in non-decreasing
`createTime` order, `expireOldEvents` with cutoff `C` removes exactly
the prefix of records with `createTime < C` per user, keeps the rest in
unchanged order (all with `createTime ≥ C`), clears both heads for a
fully-expired user, returns true exactly when something was removed, and
is idempotent at the same cutoff. -/
theorem expireOldEvents_spec (m : EventsMapState) (C : Nat)
    (hwf : ∀ p ∈ m, SortedChainState p.2) :
    ExpireSpec m C := by
  refine ⟨?_, ?_, ?_⟩
  · intro p hp
    have h := expireUser_sorted_spec p.2 C (hwf p hp)
    exact ⟨h.1, h.2.1, h.2.2.1⟩
  · show (m.any fun p => (expireUser p.2 C).2) = true ↔ _
    rw [List.any_eq_true]
    constructor
    · rintro ⟨p, hp, hb⟩
      exact ⟨p, hp,
        ((expireUser_sorted_spec p.2 C (hwf p hp)).2.2.2.1).mp hb⟩
    · rintro ⟨p, hp, e, he, hlt⟩
      exact ⟨p, hp,
        ((expireUser_sorted_spec p.2 C (hwf p hp)).2.2.2.1).mpr ⟨e, he, hlt⟩⟩
  · have hmap : ∀ q ∈ (expireOldEvents m C).1,
        expireUser q.2 C = (q.2, false) := by
      intro q hq
      obtain ⟨p, hp, rfl⟩ := List.mem_map.mp hq
      show expireUser (expireUser p.2 C).1 C = ((expireUser p.2 C).1, false)
      exact (expireUser_sorted_spec p.2 C (hwf p hp)).2.2.2.2
    have hfst : (expireOldEvents (expireOldEvents m C).1 C).1
        = (expireOldEvents m C).1 := by
      show ((expireOldEvents m C).1.map fun q => (q.1, (expireUser q.2 C).1))
          = (expireOldEvents m C).1
      rw [List.map_congr_left (g := id) (fun q hq => by
        show (q.1, (expireUser q.2 C).1) = q
        rw [hmap q hq])]
      exact List.map_id _
    have hsnd : (expireOldEvents (expireOldEvents m C).1 C).2 = false := by
      show ((expireOldEvents m C).1.any fun q => (expireUser q.2 C).2) = false
      rw [List.any_eq_false]
      intro q hq
      rw [hmap q hq]
      simp
    exact Prod.ext hfst hsnd

/-- Witness for C3 on a one-user, one-record store with cutoff 10. -/
theorem expireOldEvents_spec_witness :
    (∀ p ∈ ([("alice", prunedChain [⟨5, 1, true, false⟩] 0)] :
        EventsMapState), SortedChainState p.2) ∧
    ExpireSpec [("alice", prunedChain [⟨5, 1, true, false⟩] 0)] 10 := by
  have hwf : ∀ p ∈ ([("alice", prunedChain [⟨5, 1, true, false⟩] 0)] :
      EventsMapState), SortedChainState p.2 := by
    intro p hp
    rcases List.mem_singleton.mp hp with rfl
    exact ⟨[⟨5, 1, true, false⟩], 0, by omega,
      List.pairwise_singleton _ _, rfl⟩
  exact ⟨hwf,
    expireOldEvents_spec [("alice", prunedChain [⟨5, 1, true, false⟩] 0)]
      10 hwf⟩

/-- A `getEventsList` call on a populated cache returns the cached
snapshot and leaves the state untouched. -/
theorem getEventsList_of_cached (s : LoopState) (ev : EventsMap)
    (h : s.lastEvents = some ev) : getEventsList s = (s, ev) := by
  simp only [getEventsList, h]

/-- After any `getEventsList` call the cache holds exactly the snapshot
that was returned. -/
theorem getEventsList_cache (s : LoopState) :
    (getEventsList s).1.lastEvents = some (getEventsList s).2 := by
  cases hq : s.lastEvents with
  | some ev =>
    rw [getEventsList_of_cached s ev hq]
    exact hq
  | none =>
    simp only [getEventsList, hq]

/-- Requests processed while the cache is populated change nothing. -/
theorem processRequests_cached (now : Nat) :
    ∀ n (s : LoopState) (ev : EventsMap), s.lastEvents = some ev →
      processRequests now n s = s := by
  intro n
  induction n with
  | zero => intro s ev _; rfl
  | succ n ih =>
    intro s ev h
    show (match step now s .request with
      | some (s', _) => processRequests now n s'
      | none => s) = s
    have hst : step now s .request = some (s, some ev) := by
      show some ((getEventsList s).1, some (getEventsList s).2) = _
      rw [getEventsList_of_cached s ev h]
    rw [hst]
    exact ih s ev h

/-- C6: two consecutive snapshot requests with no intervening mutation
return the identical cached snapshot from an unchanged state; an append
of either certificate kind, and an expiration pass that removed
something, leave the cache invalidated; and any run of requests from any
state performs at most one rebuild. -/
theorem snapshotCache_spec :
    (∀ now now' (s s₁ : LoopState) ev,
      step now s .request = some (s₁, some ev) →
      step now' s₁ .request = some (s₁, some ev)) ∧
    (∀ now (s : LoopState) principals lt r,
      step now s (.sshCert principals lt) = some r →
      r.1.lastEvents = none) ∧
    (∀ now (s : LoopState) cn lt r,
      step now s (.x509Cert cn lt) = some r → r.1.lastEvents = none) ∧
    (∀ now (s : LoopState) r, step now s .hourlyTick = some r →
      (expireOldEvents s.eventsMap (now - durationMonth)).2 = true →
      r.1.lastEvents = none) ∧
    (∀ now n (s : LoopState),
      (processRequests now n s).rebuilds ≤ s.rebuilds + 1) := by
  refine ⟨?_, ?_, ?_, ?_, ?_⟩
  · intro now now' s s₁ ev h
    have hr : step now s .request
        = some ((getEventsList s).1, some (getEventsList s).2) := rfl
    rw [hr] at h
    have h' := Option.some.inj h
    have h1 : (getEventsList s).1 = s₁ := congrArg Prod.fst h'
    have h2 : (getEventsList s).2 = ev :=
      Option.some.inj (congrArg Prod.snd h')
    have hc : s₁.lastEvents = some ev := by
      rw [← h1, ← h2]
      exact getEventsList_cache s
    have hr' : step now' s₁ .request
        = some ((getEventsList s₁).1, some (getEventsList s₁).2) := rfl
    rw [hr', getEventsList_of_cached s₁ ev hc]
  · intro now s principals lt r h
    cases principals with
    | nil => exact absurd h (by simp [step])
    | cons p ps =>
      have hst : step now s (.sshCert (p :: ps) lt)
          = some ({ s with
              lastEvents := none
              eventsMap := recordEvent s.eventsMap now p lt true false },
            none) := rfl
      rw [hst] at h
      cases Option.some.inj h
      rfl
  · intro now s cn lt r h
    have hst : step now s (.x509Cert cn lt)
        = some ({ s with
            lastEvents := none
            eventsMap := recordEvent s.eventsMap now cn lt false true },
          none) := rfl
    rw [hst] at h
    cases Option.some.inj h
    rfl
  · intro now s r h hch
    have hst : step now s .hourlyTick
        = some ({ s with
            eventsMap := (expireOldEvents s.eventsMap (now - durationMonth)).1
            lastEvents := none }, none) := by
      unfold step
      rw [if_pos hch]
    rw [hst] at h
    cases Option.some.inj h
    rfl
  · intro now n s
    cases n with
    | zero =>
      show s.rebuilds ≤ s.rebuilds + 1
      omega
    | succ n =>
      show (match step now s .request with
        | some (s', _) => processRequests now n s'
        | none => s).rebuilds ≤ s.rebuilds + 1
      have hst : step now s .request
          = some ((getEventsList s).1, some (getEventsList s).2) := rfl
      rw [hst]
      show (processRequests now n (getEventsList s).1).rebuilds
          ≤ s.rebuilds + 1
      rw [processRequests_cached now n (getEventsList s).1
        (getEventsList s).2 (getEventsList_cache s)]
      cases hq : s.lastEvents with
      | some ev =>
        rw [getEventsList_of_cached s ev hq]
        show s.rebuilds ≤ s.rebuilds + 1
        omega
      | none =>
        have hreb : (getEventsList s).1.rebuilds = s.rebuilds + 1 := by
          simp only [getEventsList, hq]
        omega

/-- Witness for C6: a cached request answered twice identically, ssh and
x509 appends and a removing expiration leaving the cache empty, and a
run of five requests costing at most one rebuild. -/
theorem snapshotCache_spec_witness :
    step 0 (⟨[], none, 0⟩ : LoopState) .request
        = some (⟨[], some [], 1⟩, some []) ∧
    step 0 (⟨[], some [], 1⟩ : LoopState) .request
        = some (⟨[], some [], 1⟩, some []) ∧
    ((⟨recordEvent [] 0 "u" 59 true false, none, 0⟩ : LoopState).lastEvents
        = none) ∧
    ((⟨recordEvent [] 0 "v" 61 false true, none, 0⟩ : LoopState).lastEvents
        = none) ∧
    (expireOldEvents [("u", prunedChain [⟨0, 1, true, false⟩] 0)]
        (durationMonth + 5 - durationMonth)).2 = true ∧
    ((⟨(expireOldEvents [("u", prunedChain [⟨0, 1, true, false⟩] 0)]
          (durationMonth + 5 - durationMonth)).1, none, 0⟩
        : LoopState).lastEvents = none) ∧
    (processRequests 3 5 ⟨[], none, 0⟩).rebuilds
        ≤ (⟨[], none, 0⟩ : LoopState).rebuilds + 1 := by
  refine ⟨rfl, ?_, ?_, ?_, rfl, ?_, ?_⟩
  · exact snapshotCache_spec.1 0 0 ⟨[], none, 0⟩ ⟨[], some [], 1⟩ [] rfl
  · exact snapshotCache_spec.2.1 0 ⟨[], none, 0⟩ ["u"] 59
      (⟨recordEvent [] 0 "u" 59 true false, none, 0⟩, none) rfl
  · exact snapshotCache_spec.2.2.1 0 ⟨[], none, 0⟩ "v" 61
      (⟨recordEvent [] 0 "v" 61 false true, none, 0⟩, none) rfl
  · exact snapshotCache_spec.2.2.2.1 (durationMonth + 5)
      ⟨[("u", prunedChain [⟨0, 1, true, false⟩] 0)], none, 0⟩
      (⟨(expireOldEvents [("u", prunedChain [⟨0, 1, true, false⟩] 0)]
          (durationMonth + 5 - durationMonth)).1, none, 0⟩, none) rfl rfl
  · exact snapshotCache_spec.2.2.2.2 3 5 ⟨[], none, 0⟩

/-- Every definite answer of the bind-pattern loop carries a nil
error. -/
theorem tryBindPatterns_no_error (env : AuthEnv)
    (pa : PasswordAuthenticator) (username password url : String) :
    ∀ bps r, tryBindPatterns env pa username password url bps = some r →
      r.1.2 = none := by
  intro bps
  induction bps with
  | nil =>
    intro r h
    exact absurd h (by simp [tryBindPatterns])
  | cons bp rest ih =>
    intro r h
    simp only [tryBindPatterns] at h
    cases hc : env.checkLDAPUserPassword url
        (convertToBindDN env username bp) password with
    | error e =>
      rw [hc] at h
      exact ih r h
    | ok valid =>
      rw [hc] at h
      cases Option.some.inj h
      rfl

/-- Every definite answer of the URL loop carries a nil error. -/
theorem tryLdapURLs_no_error (env : AuthEnv) (pa : PasswordAuthenticator)
    (username password : String) :
    ∀ urls r, tryLdapURLs env pa username password urls = some r →
      r.1.2 = none := by
  intro urls
  induction urls with
  | nil =>
    intro r h
    exact absurd h (by simp [tryLdapURLs])
  | cons url rest ih =>
    intro r h
    simp only [tryLdapURLs] at h
    cases hc : tryBindPatterns env pa username password url
        pa.bindPattern with
    | some r' =>
      rw [hc] at h
      obtain rfl := Option.some.inj h
      exact tryBindPatterns_no_error env pa username password url
        pa.bindPattern _ hc
    | none =>
      rw [hc] at h
      exact ih r h

/-- `updateOrDeletePasswordHash` returns nil on every path. -/
theorem updateOrDeletePasswordHash_no_error (env : AuthEnv)
    (pa : PasswordAuthenticator) (valid : Bool)
    (username password : String) :
    (updateOrDeletePasswordHash env pa valid username password).2
      = none := by
  unfold updateOrDeletePasswordHash
  repeat' split
  all_goals rfl

/-- C10: `passwordAuthenticate` returns a nil error for every
environment, state, username and password — LDAP connection failures,
storage read failures, hash-creation failures and cache misses are all
swallowed, so a caller sees only the boolean and cannot tell a wrong
password from every backend being unreachable. -/
theorem passwordAuthenticate_swallows_errors :
    (∀ env pa username password,
      ((passwordAuthenticate env pa username password).1).2 = none) ∧
    (∀ env pa valid username password,
      (updateOrDeletePasswordHash env pa valid username password).2
        = none) := by
  constructor
  · intro env pa username password
    unfold passwordAuthenticate
    cases hc : tryLdapURLs env pa username password pa.ldapURL with
    | some r =>
      show r.1.2 = none
      exact tryLdapURLs_no_error env pa username password pa.ldapURL r hc
    | none =>
      show (passwordAuthenticateFallback env pa username password).1.2 = none
      unfold passwordAuthenticateFallback
      repeat' split
      all_goals rfl
  · intro env pa valid username password
    exact updateOrDeletePasswordHash_no_error env pa valid username password

end Keymaster
